import Mathlib

/-!
Verification of the alchemical-dictionaries extraction/browsing code.

This file gives a shallow embedding, in Lean 4, of the parts of the
repository that the specification talks about:

* the JavaScript dictionary viewers (`DictionaryManager` in the archived
  `app.js`, `DictionaryDataLoader` in `dictionary.js`): symbol resolution
  (`getSymbolUnicode`), entry enhancement (`enhanceEntries`), entry lookup
  (`getEntry`), HTML sanitisation (`sanitizeHTML`), the empty letter-index
  fallback (`createEmptyLetterIndex`);
* the `DataStore` singleton of the Vite app (`dataStore.js`): `search`;
* the TEI-to-JSON conversion pipeline (lemma normalisation, duplicate-id
  disambiguation, letter partitioning).  The Python pipeline script itself is
  not part of the source tree (only its documentation and its JSON consumers
  are), so those components are modelled from the specification text, as
  flagged in the individual doc comments.

JavaScript strings are modelled as Lean `String`s; a JS field that can be
`undefined`/`null` is modelled as `Option` or, for string fields where the
code only ever tests truthiness, as a `String` with `""` playing the role of
the falsy values (in JS both `undefined` and `""` are falsy, every non-empty
string is truthy, so the translation preserves every branch condition).
-/

namespace AlchDict

set_option autoImplicit false

/-! ## Generic association-list lookup (JS object / Python dict access) -/

/-- First-match lookup in an association list; models `obj[key]` on a JS
object literal and `dict.get` in Python. -/
def tlook {κ : Type} [DecidableEq κ] {α : Type} (k : κ) : List (κ × α) → Option α
  | [] => none
  | (k2, v) :: rest => if k = k2 then some v else tlook k rest

theorem mem_of_tlook_eq_some {κ : Type} [DecidableEq κ] {α : Type} {k : κ}
    {l : List (κ × α)} {v : α} (h : tlook k l = some v) : (k, v) ∈ l := by
  induction l with
  | nil => simp [tlook] at h
  | cons p rest ih =>
    obtain ⟨k2, v2⟩ := p
    by_cases hk : k = k2
    · subst hk
      simp [tlook] at h
      subst h
      exact List.mem_cons_self _ _
    · simp [tlook, hk] at h
      exact List.mem_cons_of_mem _ (ih h)

/-! ## Decimal representation of naturals (Python `f"...{n}"` formatting) -/

/-- The character for one decimal digit. -/
def digitChar (d : Nat) : Char := Char.ofNat (48 + d)

/-- Fuel-indexed digit accumulator; `fuel > n` always suffices. -/
def natDigitsF : Nat → Nat → List Char
  | 0, _ => []
  | fuel + 1, n =>
    if n < 10 then [digitChar n]
    else natDigitsF fuel (n / 10) ++ [digitChar (n % 10)]

/-- Decimal digit list of a natural number, most significant first;
this is exactly what Python string interpolation prints for an `int`. -/
def natDigits (n : Nat) : List Char := natDigitsF (n + 1) n

/-- Decimal representation of a natural number as a string. -/
def natToStr (n : Nat) : String := ⟨natDigits n⟩

/-- Value of a digit character list read back as a decimal number. -/
def digitsVal (l : List Char) : Nat :=
  l.foldl (fun a c => 10 * a + (c.toNat - 48)) 0

theorem digitsVal_append (l : List Char) (c : Char) :
    digitsVal (l ++ [c]) = 10 * digitsVal l + (c.toNat - 48) := by
  simp [digitsVal, List.foldl_append]

theorem toNat_digitChar {d : Nat} (h : d < 10) : (digitChar d).toNat = 48 + d := by
  interval_cases d <;> decide

theorem natDigitsF_congr : ∀ (n f1 f2 : Nat), n < f1 → n < f2 →
    natDigitsF f1 n = natDigitsF f2 n := by
  intro n
  induction n using Nat.strong_induction_on with
  | _ n ih =>
    intro f1 f2 h1 h2
    cases f1 with
    | zero => omega
    | succ g1 =>
      cases f2 with
      | zero => omega
      | succ g2 =>
        by_cases h10 : n < 10
        · simp [natDigitsF, h10]
        · simp only [natDigitsF, if_neg h10]
          have hlt : n / 10 < n := Nat.div_lt_self (by omega) (by omega)
          rw [ih (n / 10) hlt g1 g2 (by omega) (by omega)]

theorem natDigits_eq (n : Nat) :
    natDigits n = if n < 10 then [digitChar n]
      else natDigits (n / 10) ++ [digitChar (n % 10)] := by
  show natDigitsF (n + 1) n = _
  by_cases h10 : n < 10
  · simp [natDigitsF, h10]
  · simp only [natDigitsF, if_neg h10]
    have hlt : n / 10 < n := Nat.div_lt_self (by omega) (by omega)
    rw [natDigitsF_congr (n / 10) n (n / 10 + 1) (by omega) (by omega)]
    rfl

theorem digitsVal_natDigits (n : Nat) : digitsVal (natDigits n) = n := by
  induction n using Nat.strong_induction_on with
  | _ n ih =>
    rw [natDigits_eq]
    by_cases h : n < 10
    · simp only [h, if_true]
      simp [digitsVal, toNat_digitChar h]
    · simp only [h, if_false]
      rw [digitsVal_append, ih (n / 10) (Nat.div_lt_self (by omega) (by omega)),
        toNat_digitChar (Nat.mod_lt _ (by omega))]
      omega

theorem natDigits_inj {m n : Nat} (h : natDigits m = natDigits n) : m = n := by
  have hm := digitsVal_natDigits m
  rw [h, digitsVal_natDigits] at hm
  exact hm.symm

theorem natToStr_inj {m n : Nat} (h : natToStr m = natToStr n) : m = n := by
  apply natDigits_inj
  have : (natToStr m).data = (natToStr n).data := by rw [h]
  exact this

theorem mem_natDigits_isDigit {a : Char} {n : Nat} (h : a ∈ natDigits n) :
    ∃ d, d < 10 ∧ a = digitChar d := by
  induction n using Nat.strong_induction_on with
  | _ n ih =>
    rw [natDigits_eq] at h
    by_cases h10 : n < 10
    · simp only [h10, if_true, List.mem_singleton] at h
      exact ⟨n, h10, h⟩
    · simp only [h10, if_false, List.mem_append, List.mem_singleton] at h
      rcases h with h | h
      · exact ih (n / 10) (Nat.div_lt_self (by omega) (by omega)) h
      · exact ⟨n % 10, Nat.mod_lt _ (by omega), h⟩

theorem tilde_not_mem_natDigits (n : Nat) : Char.ofNat 126 ∉ natDigits n := by
  intro h
  obtain ⟨d, hd, he⟩ := mem_natDigits_isDigit h
  interval_cases d <;> exact absurd he (by decide)

/-! ## Splitting a string at its first tilde occurrence -/

theorem split_at_tilde {x1 x2 r1 r2 : List Char}
    (h1 : Char.ofNat 126 ∉ x1) (h2 : Char.ofNat 126 ∉ x2)
    (he : x1 ++ Char.ofNat 126 :: r1 = x2 ++ Char.ofNat 126 :: r2) :
    x1 = x2 ∧ r1 = r2 := by
  induction x1 generalizing x2 with
  | nil =>
    cases x2 with
    | nil => simpa using he
    | cons b bs =>
      simp only [List.nil_append, List.cons_append, List.cons.injEq] at he
      refine absurd ?_ h2
      rw [he.1]
      exact List.mem_cons_self b bs
  | cons a as ih =>
    cases x2 with
    | nil =>
      simp only [List.cons_append, List.nil_append, List.cons.injEq] at he
      refine absurd ?_ h1
      rw [← he.1]
      exact List.mem_cons_self a as
    | cons b bs =>
      simp only [List.cons_append, List.cons.injEq] at he
      have h1' : Char.ofNat 126 ∉ as := fun hm => h1 (List.mem_cons_of_mem _ hm)
      have h2' : Char.ofNat 126 ∉ bs := fun hm => h2 (List.mem_cons_of_mem _ hm)
      obtain ⟨hx, hr⟩ := ih h1' h2' he.2
      exact ⟨by rw [he.1, hx], hr⟩

/-! ## Character-level primitives of the JavaScript / Python string functions

The corpus is Latin with German glosses; the character repertoire that the
pipeline and the viewers case-map and decompose is ASCII plus the Latin-1
letters.  The case tables below are the restriction of the Unicode simple
case mappings (what `String.prototype.toLowerCase`/`toUpperCase` and Python
`str.lower` apply) to that repertoire. -/

/-- Pairs (uppercase, lowercase) of the Unicode simple case mapping,
restricted to ASCII and the Latin-1 letters. -/
def casePairs : List (Char × Char) :=
  [('A', 'a'), ('B', 'b'), ('C', 'c'), ('D', 'd'), ('E', 'e'), ('F', 'f'),
   ('G', 'g'), ('H', 'h'), ('I', 'i'), ('J', 'j'), ('K', 'k'), ('L', 'l'),
   ('M', 'm'), ('N', 'n'), ('O', 'o'), ('P', 'p'), ('Q', 'q'), ('R', 'r'),
   ('S', 's'), ('T', 't'), ('U', 'u'), ('V', 'v'), ('W', 'w'), ('X', 'x'),
   ('Y', 'y'), ('Z', 'z'),
   ('À', 'à'), ('Á', 'á'), ('Â', 'â'), ('Ã', 'ã'), ('Ä', 'ä'), ('Å', 'å'),
   ('Ç', 'ç'), ('È', 'è'), ('É', 'é'), ('Ê', 'ê'), ('Ë', 'ë'), ('Ì', 'ì'),
   ('Í', 'í'), ('Î', 'î'), ('Ï', 'ï'), ('Ñ', 'ñ'), ('Ò', 'ò'), ('Ó', 'ó'),
   ('Ô', 'ô'), ('Õ', 'õ'), ('Ö', 'ö'), ('Ù', 'ù'), ('Ú', 'ú'), ('Û', 'û'),
   ('Ü', 'ü'), ('Ý', 'ý')]

/-- Lower-casing of one character (`toLowerCase`, `str.lower`). -/
def jsToLower (c : Char) : Char :=
  match tlook c casePairs with
  | some l => l
  | none => c

/-- Upper-casing of one character (`toUpperCase`, `str.upper`). -/
def jsToUpper (c : Char) : Char :=
  match tlook c (casePairs.map (fun p => (p.2, p.1))) with
  | some u => u
  | none => c

/-- Lower-casing of a string, character by character. -/
def jsLowerStr (s : String) : String := ⟨s.data.map jsToLower⟩

/-- Upper-casing of a string, character by character. -/
def jsUpperStr (s : String) : String := ⟨s.data.map jsToUpper⟩

/-- JS `s.charAt(0)`: a one-character string, or `""` on the empty string. -/
def charAt0 (s : String) : String :=
  match s.data with
  | [] => ""
  | c :: _ => ⟨[c]⟩

/-- Whitespace as matched by the normaliser when collapsing runs. -/
def isWS (c : Char) : Bool :=
  c = ' ' || c = Char.ofNat 9 || c = Char.ofNat 10 || c = Char.ofNat 13

/-- Combining diacritical marks (the Unicode block U+0300–U+036F); these are
what the normaliser strips after decomposition. -/
def isMark (c : Char) : Bool := 768 ≤ c.toNat && c.toNat ≤ 879

/-- Canonical (NFD) decompositions of the precomposed Latin-1 lowercase
letters: base letter followed by a combining mark.  Characters outside the
table decompose to themselves. -/
def decTable : List (Char × List Char) :=
  [('à', ['a', Char.ofNat 768]), ('á', ['a', Char.ofNat 769]),
   ('â', ['a', Char.ofNat 770]), ('ã', ['a', Char.ofNat 771]),
   ('ä', ['a', Char.ofNat 776]), ('å', ['a', Char.ofNat 778]),
   ('ç', ['c', Char.ofNat 807]), ('è', ['e', Char.ofNat 768]),
   ('é', ['e', Char.ofNat 769]), ('ê', ['e', Char.ofNat 770]),
   ('ë', ['e', Char.ofNat 776]), ('ì', ['i', Char.ofNat 768]),
   ('í', ['i', Char.ofNat 769]), ('î', ['i', Char.ofNat 770]),
   ('ï', ['i', Char.ofNat 776]), ('ñ', ['n', Char.ofNat 771]),
   ('ò', ['o', Char.ofNat 768]), ('ó', ['o', Char.ofNat 769]),
   ('ô', ['o', Char.ofNat 770]), ('õ', ['o', Char.ofNat 771]),
   ('ö', ['o', Char.ofNat 776]), ('ù', ['u', Char.ofNat 768]),
   ('ú', ['u', Char.ofNat 769]), ('û', ['u', Char.ofNat 770]),
   ('ü', ['u', Char.ofNat 776]), ('ý', ['y', Char.ofNat 769]),
   ('ÿ', ['y', Char.ofNat 776])]

/-- NFD decomposition of one character. -/
def dec (c : Char) : List Char :=
  match tlook c decTable with
  | some ds => ds
  | none => [c]

/-- NFD decomposition of a character list. -/
def decList : List Char → List Char
  | [] => []
  | c :: cs => dec c ++ decList cs

/-- Removal of combining marks from a character list. -/
def stripMarks : List Char → List Char
  | [] => []
  | c :: cs => if isMark c then stripMarks cs else c :: stripMarks cs

/-- Whitespace-run collapsing: every maximal run of whitespace becomes one
space.  The boolean records whether the previous input character was part of
a whitespace run. -/
def collapseGo : Bool → List Char → List Char
  | _, [] => []
  | prevWS, c :: cs =>
    if isWS c then
      if prevWS then collapseGo true cs else ' ' :: collapseGo true cs
    else c :: collapseGo false cs

/-- Whitespace-run collapsing of a character list. -/
def collapseWS (l : List Char) : List Char := collapseGo false l

/-- Modelled from the spec: the Lemma Normalizer of the TEI-to-JSON pipeline
(`build_data.py` step 1.3 / 2.5, a script that is not part of this source
tree).  Per the specification: lower-case, Unicode-decompose to separate
base characters from combining diacritical marks, strip the combining
marks, collapse internal whitespace. -/
def normalize (s : String) : String :=
  ⟨collapseWS (stripMarks (decList (s.data.map jsToLower)))⟩

/-! ## Idempotence infrastructure for the normaliser -/

theorem str_ext {a b : String} (h : a.data = b.data) : a = b := by
  cases a
  cases b
  simp only at h
  subst h
  rfl

theorem collapseGo_cons_ws_t {c : Char} {cs : List Char} (hc : isWS c = true) :
    collapseGo true (c :: cs) = collapseGo true cs := by
  simp [collapseGo, hc]

theorem collapseGo_cons_ws_f {c : Char} {cs : List Char} (hc : isWS c = true) :
    collapseGo false (c :: cs) = ' ' :: collapseGo true cs := by
  simp [collapseGo, hc]

theorem collapseGo_cons_nws {c : Char} {cs : List Char} {b : Bool} (hc : isWS c = false) :
    collapseGo b (c :: cs) = c :: collapseGo false cs := by
  simp [collapseGo, hc]

theorem jsToLower_stable (c : Char) : jsToLower (jsToLower c) = jsToLower c := by
  have hall : casePairs.all (fun p => (tlook p.2 casePairs).isNone) = true := by decide
  unfold jsToLower
  cases h : tlook c casePairs with
  | none => simp [h]
  | some l =>
    have hm := mem_of_tlook_eq_some h
    have := List.all_eq_true.mp hall _ hm
    simp only [Option.isNone_iff_eq_none] at this
    simp [this]

theorem dec_of_jsToLower {c a : Char} (ha : a ∈ dec (jsToLower c))
    (hmk : isMark a = false) : jsToLower a = a ∧ dec a = [a] := by
  have hall : decTable.all
      (fun p => p.2.all
        (fun d => isMark d || ((tlook d casePairs).isNone && (tlook d decTable).isNone))) =
      true := by decide
  unfold dec at ha
  cases h : tlook (jsToLower c) decTable with
  | none =>
    rw [h] at ha
    simp only [List.mem_singleton] at ha
    subst ha
    refine ⟨jsToLower_stable c, ?_⟩
    unfold dec
    rw [h]
  | some ds =>
    rw [h] at ha
    have hm := mem_of_tlook_eq_some h
    have h1 := List.all_eq_true.mp hall _ hm
    have h2 := List.all_eq_true.mp h1 _ ha
    simp only [hmk, Bool.false_or, Bool.and_eq_true, Option.isNone_iff_eq_none] at h2
    constructor
    · unfold jsToLower
      rw [h2.1]
    · unfold dec
      rw [h2.2]

theorem mem_decList {a : Char} {l : List Char} (h : a ∈ decList l) :
    ∃ c ∈ l, a ∈ dec c := by
  induction l with
  | nil => simp [decList] at h
  | cons c cs ih =>
    simp only [decList, List.mem_append] at h
    rcases h with h | h
    · exact ⟨c, List.mem_cons_self c cs, h⟩
    · obtain ⟨c2, hc2, ha⟩ := ih h
      exact ⟨c2, List.mem_cons_of_mem _ hc2, ha⟩

theorem mem_stripMarks {a : Char} {l : List Char} (h : a ∈ stripMarks l) :
    a ∈ l ∧ isMark a = false := by
  induction l with
  | nil => simp [stripMarks] at h
  | cons c cs ih =>
    simp only [stripMarks] at h
    by_cases hc : isMark c
    · rw [if_pos hc] at h
      obtain ⟨h1, h2⟩ := ih h
      exact ⟨List.mem_cons_of_mem _ h1, h2⟩
    · rw [if_neg hc] at h
      rcases List.mem_cons.mp h with rfl | h
      · exact ⟨List.mem_cons_self _ _, by simpa using hc⟩
      · obtain ⟨h1, h2⟩ := ih h
        exact ⟨List.mem_cons_of_mem _ h1, h2⟩

theorem mem_collapseGo {a : Char} {l : List Char} {b : Bool}
    (h : a ∈ collapseGo b l) : a = ' ' ∨ (a ∈ l ∧ isWS a = false) := by
  induction l generalizing b with
  | nil => simp [collapseGo] at h
  | cons c cs ih =>
    by_cases hc : isWS c
    · cases b with
      | true =>
        rw [collapseGo_cons_ws_t hc] at h
        rcases ih (b := true) h with h1 | h1
        · exact Or.inl h1
        · exact Or.inr ⟨List.mem_cons_of_mem _ h1.1, h1.2⟩
      | false =>
        rw [collapseGo_cons_ws_f hc] at h
        rcases List.mem_cons.mp h with rfl | h2
        · exact Or.inl rfl
        · rcases ih (b := true) h2 with h1 | h1
          · exact Or.inl h1
          · exact Or.inr ⟨List.mem_cons_of_mem _ h1.1, h1.2⟩
    · rw [collapseGo_cons_nws (by simpa using hc)] at h
      rcases List.mem_cons.mp h with rfl | h2
      · exact Or.inr ⟨List.mem_cons_self _ _, by simpa using hc⟩
      · rcases ih (b := false) h2 with h1 | h1
        · exact Or.inl h1
        · exact Or.inr ⟨List.mem_cons_of_mem _ h1.1, h1.2⟩

theorem map_jsToLower_id {l : List Char} (h : ∀ a ∈ l, jsToLower a = a) :
    l.map jsToLower = l := by
  induction l with
  | nil => rfl
  | cons c cs ih =>
    simp only [List.map_cons]
    rw [h c (List.mem_cons_self _ _), ih (fun a ha => h a (List.mem_cons_of_mem _ ha))]

theorem decList_id {l : List Char} (h : ∀ a ∈ l, dec a = [a]) :
    decList l = l := by
  induction l with
  | nil => rfl
  | cons c cs ih =>
    simp only [decList]
    rw [h c (List.mem_cons_self _ _), ih (fun a ha => h a (List.mem_cons_of_mem _ ha))]
    rfl

theorem stripMarks_id {l : List Char} (h : ∀ a ∈ l, isMark a = false) :
    stripMarks l = l := by
  induction l with
  | nil => rfl
  | cons c cs ih =>
    simp only [stripMarks]
    rw [if_neg (by simp [h c (List.mem_cons_self _ _)]),
      ih (fun a ha => h a (List.mem_cons_of_mem _ ha))]

theorem collapseGo_idem (l : List Char) : ∀ b, collapseGo b (collapseGo b l) = collapseGo b l := by
  induction l with
  | nil => intro b; rfl
  | cons c cs ih =>
    intro b
    by_cases hc : isWS c
    · cases b with
      | true =>
        rw [collapseGo_cons_ws_t hc, ih true]
      | false =>
        rw [collapseGo_cons_ws_f hc, collapseGo_cons_ws_f (by decide), ih true]
    · rw [collapseGo_cons_nws (by simpa using hc), collapseGo_cons_nws (by simpa using hc),
        ih false]

theorem norm_chars_stable {s : String} {a : Char} (h : a ∈ (normalize s).data) :
    jsToLower a = a ∧ dec a = [a] ∧ isMark a = false := by
  have h2 : a ∈ collapseGo false (stripMarks (decList (s.data.map jsToLower))) := h
  rcases mem_collapseGo h2 with rfl | ⟨h3, _⟩
  · exact ⟨by decide, by decide, by decide⟩
  · obtain ⟨h4, hmk⟩ := mem_stripMarks h3
    obtain ⟨c2, hc2, ha⟩ := mem_decList h4
    obtain ⟨c0, _, rfl⟩ := List.mem_map.mp hc2
    obtain ⟨hl, hd⟩ := dec_of_jsToLower ha hmk
    exact ⟨hl, hd, hmk⟩

/-! ## Records / entries

One dictionary-entry object as the viewers see it.  The JS field `lemma` is
rendered here as `lemmaStr` because `lemma` is a reserved word in Lean; all
other field names follow the source.  String fields that the code only ever
tests for truthiness use `""` for the absent/falsy case; `symbols` and
`symbolsUnicode` can be genuinely `undefined` and are `Option`s. -/

structure JEntry where
  id : String := ""
  lemmaStr : String := ""
  letter : String := ""
  source : String := ""
  definition : String := ""
  symbols : Option (List String) := none
  symbolsUnicode : Option (List String) := none
  deriving DecidableEq, Repr

/-! ## Symbol registry and `getSymbolUnicode` -/

/-- One declared symbol, as stored in `sommerhoff_symbols.json` and cached in
`this.symbols` / `this.cache.symbols`.  `unicode` holds a `"U+XXXX"` code
point or a literal character, `unicode_char` a pre-resolved literal
character; `""` models an absent field (both are falsy in JS). -/
structure SymbolInfo where
  name : String := ""
  unicode : String := ""
  unicode_char : String := ""
  deriving DecidableEq, Repr

/-- The symbol cache: symbol id to declaration. -/
abbrev SymMap : Type := List (String × SymbolInfo)

/-- One hexadecimal digit value, as recognised by JS `parseInt(_, 16)`. -/
def hexVal (c : Char) : Option Nat :=
  if 48 ≤ c.toNat ∧ c.toNat ≤ 57 then some (c.toNat - 48)
  else if 97 ≤ c.toNat ∧ c.toNat ≤ 102 then some (c.toNat - 87)
  else if 65 ≤ c.toNat ∧ c.toNat ≤ 70 then some (c.toNat - 55)
  else none

/-- Accumulates the longest hex-digit prefix, ignoring whatever follows —
exactly `parseInt`'s digit-consumption loop. -/
def hexDigitsVal (l : List Char) (acc : Nat) : Nat :=
  match l with
  | [] => acc
  | c :: cs =>
    match hexVal c with
    | some d => hexDigitsVal cs (16 * acc + d)
    | none => acc

/-- Strips an optional `0x`/`0X` prefix, allowed by `parseInt` at radix 16. -/
def strip0x : List Char → List Char
  | '0' :: 'x' :: rest => rest
  | '0' :: 'X' :: rest => rest
  | l => l

/-- JS `parseInt(s, 16)`: skip leading whitespace, optional sign, optional
`0x`, then read the longest hex-digit prefix; `none` models `NaN`. -/
def jsParseIntHex (s : String) : Option Int :=
  match strip0x ((s.data.dropWhile isWS).dropWhile (fun c => c = '+')) with
  | '-' :: rest =>
    match strip0x rest with
    | c :: cs =>
      match hexVal c with
      | some d => some (-(Int.ofNat (hexDigitsVal cs d)))
      | none => none
    | [] => none
  | c :: cs =>
    match hexVal c with
    | some d => some (Int.ofNat (hexDigitsVal cs d))
    | none => none
  | [] => none

/-- JS `String.fromCodePoint(n)`: a one-character string for any code point
in `0 .. 0x10FFFF`, `none` models the `RangeError` thrown outside that
range (and on `NaN`).  For a surrogate code point JS builds a one-character
lone-surrogate string, which has no Lean `Char`; `Char.ofNat` maps it to the
one-character fallback `⟨0⟩`, which is equally non-empty, and no symbol in
the corpus declares a surrogate code point. -/
def jsFromCodePoint (n : Int) : Option String :=
  if 0 ≤ n ∧ n ≤ 1114111 then some ⟨[Char.ofNat n.toNat]⟩ else none

/-- True when the string starts with the two characters `U+`. -/
def startsWithUPlus (s : String) : Bool :=
  match s.data with
  | 'U' :: '+' :: _ => true
  | _ => false

/-- JS `s.substring(2)`. -/
def substring2 (s : String) : String := ⟨s.data.drop 2⟩

/-- The found-symbol branch of `DictionaryManager.getSymbolUnicode`: the
`U+XXXX` conversion inside `try`/`catch` (a `RangeError` falls through to
the fallback), then `symbol.name || symbolId`. -/
def resolveSym_mgr (symbolId : String) (sym : SymbolInfo) : String :=
  if sym.unicode ≠ "" ∧ startsWithUPlus sym.unicode then
    match (jsParseIntHex (substring2 sym.unicode)).bind jsFromCodePoint with
    | some ch => ch
    | none => if sym.name ≠ "" then sym.name else symbolId
  else if sym.name ≠ "" then sym.name else symbolId

/-- `DictionaryManager.getSymbolUnicode` (archived `app.js`): guard for a
missing cache or missing id, then map lookup, then the found-symbol
branch. -/
def getSymbolUnicode_mgr (symbols : Option SymMap) (symbolId : String) : String :=
  match symbols with
  | none => ""
  | some syms =>
    if symbolId = "" then ""
    else
      match tlook symbolId syms with
      | none => symbolId
      | some sym => resolveSym_mgr symbolId sym

/-- The found-symbol branch of `DictionaryDataLoader.getSymbolUnicode`: a
pre-resolved `unicode_char` first, then the `U+XXXX` conversion inside
`try`/`catch`, then a single-character `unicode` taken literally, then
`symbol.name || symbolId`. -/
def resolveSym_loader (symbolId : String) (sym : SymbolInfo) : String :=
  if sym.unicode_char ≠ "" then sym.unicode_char
  else
    match (if sym.unicode ≠ "" ∧ startsWithUPlus sym.unicode then
        (jsParseIntHex (substring2 sym.unicode)).bind jsFromCodePoint
      else none) with
    | some ch => ch
    | none =>
      if sym.unicode ≠ "" ∧ sym.unicode.data.length = 1 then sym.unicode
      else if sym.name ≠ "" then sym.name else symbolId

/-- `DictionaryDataLoader.getSymbolUnicode` (`dictionary.js`): with no cache
or no id it returns `symbolId || ''` (which, on strings, is just the id);
otherwise map lookup, then the found-symbol branch. -/
def getSymbolUnicode_loader (symbols : Option SymMap) (symbolId : String) : String :=
  match symbols with
  | none => symbolId
  | some syms =>
    if symbolId = "" then symbolId
    else
      match tlook symbolId syms with
      | none => symbolId
      | some sym => resolveSym_loader symbolId sym

/-! ## `enhanceEntries` (`DictionaryManager`, archived `app.js`) -/

/-- The letter step of the `entries.map` callback in
`DictionaryManager.enhanceEntries`: add `letter` as
`lemma.charAt(0).toUpperCase()` when `letter` is falsy and `lemma` is
truthy. -/
def enhanceLetter (entry : JEntry) : JEntry :=
  if entry.letter = "" ∧ entry.lemmaStr ≠ "" then
    { entry with letter := jsUpperStr (charAt0 entry.lemmaStr) }
  else entry

/-- The full body of the `entries.map` callback in
`DictionaryManager.enhanceEntries`: the letter step, then, for Sommerhoff
with a loaded symbol cache and a present `symbols` field, the
`symbolsUnicode` array mapping each symbol id through `getSymbolUnicode`. -/
def enhanceEntry (symbols : Option SymMap) (dictionary : String) (entry : JEntry) : JEntry :=
  match dictionary, symbols, (enhanceLetter entry).symbols with
  | "sommerhoff", some syms, some symIds =>
    { enhanceLetter entry with
        symbolsUnicode := some (symIds.map (getSymbolUnicode_mgr (some syms))) }
  | _, _, _ => enhanceLetter entry

/-- `DictionaryManager.enhanceEntries` over a list of entries. -/
def enhanceEntries (symbols : Option SymMap) (dictionary : String)
    (entries : List JEntry) : List JEntry :=
  entries.map (enhanceEntry symbols dictionary)

/-! ## Letter index -/

/-- The 26 letter keys, in the order of the `'ABC…Z'.split('')` loop. -/
def ALPHABET : List String :=
  ["A", "B", "C", "D", "E", "F", "G", "H", "I", "J", "K", "L", "M",
   "N", "O", "P", "Q", "R", "S", "T", "U", "V", "W", "X", "Y", "Z"]

/-- One per-letter bucket of a letter index; `entries` is `Option` because
`getEntry` guards `entries && entries.includes(...)` against a missing
field. -/
structure Bucket where
  count : Nat := 0
  entries : Option (List String) := some []
  deriving DecidableEq, Repr

/-- A letter index as the viewers consume it. -/
structure LetterIndexJS where
  letters : List (String × Bucket) := []
  totalEntries : Nat := 0
  deriving DecidableEq, Repr

/-- `createEmptyLetterIndex` (both `DictionaryManager` and
`DictionaryDataLoader`): every letter A–Z mapped to `{count: 0, entries: []}`
with `totalEntries: 0`. -/
def createEmptyLetterIndex : LetterIndexJS :=
  { letters := ALPHABET.map (fun letter => (letter, { count := 0, entries := some [] })),
    totalEntries := 0 }

/-- The ASCII letters, the alphabetic repertoire of the letter indexer. -/
def alphaChars : List Char :=
  ['A', 'B', 'C', 'D', 'E', 'F', 'G', 'H', 'I', 'J', 'K', 'L', 'M',
   'N', 'O', 'P', 'Q', 'R', 'S', 'T', 'U', 'V', 'W', 'X', 'Y', 'Z',
   'a', 'b', 'c', 'd', 'e', 'f', 'g', 'h', 'i', 'j', 'k', 'l', 'm',
   'n', 'o', 'p', 'q', 'r', 's', 't', 'u', 'v', 'w', 'x', 'y', 'z']

/-- True on an alphabetic character. -/
def isAlphaChar (c : Char) : Bool := decide (c ∈ alphaChars)

/-- Modelled from the spec: the indexing letter of the Letter Indexer of the
TEI-to-JSON pipeline (not part of this source tree) — the upper-cased first
alphabetic character of the lemma, skipping leading non-alphabetic
characters; `none` when the lemma has no alphabetic character. -/
def letterOf_spec (lemmaStr : String) : Option String :=
  (lemmaStr.data.find? isAlphaChar).map (fun c => ⟨[jsToUpper c]⟩)

/-- Modelled from the spec: the per-collection master letter index of the
Letter Indexer (one entry per letter: count plus the ordered id list, in
stable input order). -/
def buildLetters (records : List JEntry) : List (String × Nat × List String) :=
  ALPHABET.map (fun letter =>
    (letter,
     ((records.filter (fun r => letterOf_spec r.lemmaStr = some letter)).map JEntry.id).length,
     (records.filter (fun r => letterOf_spec r.lemmaStr = some letter)).map JEntry.id))

/-! ## `sanitizeHTML` (archived `app.js`) -/

/-- A JavaScript value as passed to `sanitizeHTML`. -/
inductive JSVal where
  | str (s : String)
  | num (n : Int)
  | bool (b : Bool)
  | null
  | undefined
  deriving DecidableEq, Repr

/-- One global single-character replacement pass, `s.replace(/c/g, r)`. -/
def repC (c : Char) (r : List Char) : List Char → List Char
  | [] => []
  | a :: as => (if a = c then r else [a]) ++ repC c r as

/-- `sanitizeHTML`: empty string for falsy or non-string input, otherwise
the five chained global replacements, `&` first, then `<`, `>`, `"`, `'`. -/
def sanitizeHTML (v : JSVal) : String :=
  match v with
  | .str s =>
    if s = "" then ""
    else
      ⟨repC (Char.ofNat 39) "&#039;".data
        (repC (Char.ofNat 34) "&quot;".data
          (repC '>' "&gt;".data
            (repC '<' "&lt;".data
              (repC '&' "&amp;".data s.data))))⟩
  | _ => ""

/-! ## `DictionaryManager.getEntry` (archived `app.js`)

The two `await`ed loads inside the `try` block are modelled as an
environment of `Except` results: `Except.error` is a rejected promise (or
any exception raised while using the loaded value), which the `catch`
swallows. -/

/-- Outcomes of the asynchronous loads that `getEntry` performs. -/
structure MgrEnv where
  letterIndex : Except Unit LetterIndexJS
  letterEntries : String → Except Unit (List JEntry)

/-- The `for (const letter in letterIndex.letters)` scan: the first letter
whose bucket has an `entries` array containing the id. -/
def findLetterFor (letters : List (String × Bucket)) (entryId : String) : Option String :=
  match letters with
  | [] => none
  | (letter, b) :: rest =>
    match b.entries with
    | some es => if entryId ∈ es then some letter else findLetterFor rest entryId
    | none => findLetterFor rest entryId

/-- The letter-guessing fallback: `entryId.split('_')`, and when there are at
least two parts, `parts[1].charAt(0).toUpperCase()` (possibly `""`, which the
following falsiness check treats like the initial `null`). -/
def guessLetter (entryId : String) : String :=
  match entryId.splitOn "_" with
  | _ :: p1 :: _ => jsUpperStr (charAt0 p1)
  | _ => ""

/-- The body of `getEntry`'s `try` block; `Except.error ()` is any thrown
error or rejected `await`, all of which land in the `catch`. -/
def tryGetEntry (env : MgrEnv) (entryId : String) : Except Unit JEntry :=
  match env.letterIndex with
  | .error _ => .error ()
  | .ok letterIndex =>
    let target :=
      match findLetterFor letterIndex.letters entryId with
      | some letter => letter
      | none => guessLetter entryId
    if target = "" then .error ()
    else
      match env.letterEntries target with
      | .error _ => .error ()
      | .ok letterData =>
        match letterData.find? (fun e => e.id = entryId) with
        | some e => .ok e
        | none => .error ()

/-- The placeholder entry built in `getEntry`'s `catch` block. -/
def placeholderEntry (entryId dictionary : String) : JEntry :=
  { id := entryId,
    lemmaStr := "Entry not found",
    letter := "Unknown",
    definition := "This entry could not be loaded.",
    source := dictionary }

/-- `DictionaryManager.getEntry`: reject (`Except.error`) only on a missing
id; otherwise run the `try` block and fall back to the placeholder entry. -/
def getEntry_mgr (env : MgrEnv) (dictionary entryId : String) : Except String JEntry :=
  if entryId = "" then .error "Entry ID is required"
  else
    match tryGetEntry env entryId with
    | .ok e => .ok e
    | .error _ => .ok (placeholderEntry entryId dictionary)

/-! ## `DataStore.search` (`dataStore.js`, both iterations) -/

/-- One Lunr hit; the code only reads its `ref`. -/
structure LunrHit where
  ref : String
  deriving DecidableEq, Repr

/-- `DataStore.search(q, {limit})`: `this.lunr.search(q).slice(0, limit)
.map(hit => this._idMap.get(hit.ref))`.  The Lunr index is external; its
result list for each query is a parameter.  `Option` models `Map.get`
returning `undefined` on an unknown ref. -/
def dsSearch (lunrSearch : String → List LunrHit) (idMap : List (String × JEntry))
    (q : String) (limit : Nat) : List (Option JEntry) :=
  ((lunrSearch q).take limit).map (fun hit => tlook hit.ref idMap)

/-- `DataStore.search(q)` with the default `limit = 20`. -/
def dsSearchDefault (lunrSearch : String → List LunrHit)
    (idMap : List (String × JEntry)) (q : String) : List (Option JEntry) :=
  dsSearch lunrSearch idMap q 20

/-! ## Identifier disambiguation (TEI-to-JSON pipeline)

Modelled from the spec: the Identifier Assigner's per-run uniqueness
registry (§4.4) — the conversion script itself is not part of this source
tree; its duplicate-id guard is documented in
`O3-REACT-MD-HISTORY/O3-REACT-APP-04-18-1700.md`:
on a collision the per-base counter is bumped and `~dup{n}` is appended,
and every emitted id is added to the seen set. -/

/-- The per-base collision counter, `dup_counter.get(xml_id, 0)`. -/
def ctrOf (ctr : List (String × Nat)) (k : String) : Nat :=
  match tlook k ctr with
  | some v => v
  | none => 0

/-- Python dict update `dup_counter[xml_id] = n`. -/
def setCtr (k : String) (v : Nat) : List (String × Nat) → List (String × Nat)
  | [] => [(k, v)]
  | (k2, v2) :: rest => if k = k2 then (k, v) :: rest else (k2, v2) :: setCtr k v rest

/-- The disambiguating suffix `~dup{n}`. -/
def dupSuffix (n : Nat) : String := "~dup" ++ natToStr n

/-- The duplicate-id guard run over the per-collection article ids, in
stable input order: an unseen id is emitted as-is, a collision bumps the
base counter and emits `id ++ "~dup" ++ n`. -/
def assignIds (seen : List String) (ctr : List (String × Nat)) :
    List String → List String
  | [] => []
  | id :: rest =>
    if id ∈ seen then
      let n := ctrOf ctr id + 1
      let newId := id ++ dupSuffix n
      newId :: assignIds (newId :: seen) (setCtr id n ctr) rest
    else
      id :: assignIds (id :: seen) ctr rest

/-- Identifier disambiguation for one collection, starting from the empty
registry. -/
def assignAll (ids : List String) : List String := assignIds [] [] ids

/-! ## Invariants of the identifier disambiguation -/

theorem str_data_append (a b : String) : (a ++ b).data = a.data ++ b.data := by
  cases a
  cases b
  rfl

theorem data_dup (base : String) (k : Nat) :
    (base ++ dupSuffix k).data =
      base.data ++ Char.ofNat 126 :: ('d' :: 'u' :: 'p' :: natDigits k) := by
  rw [dupSuffix, str_data_append, str_data_append]
  rfl

theorem tilde_mem_dup (base : String) (k : Nat) :
    Char.ofNat 126 ∈ (base ++ dupSuffix k).data := by
  rw [data_dup]
  exact List.mem_append_right _ (List.mem_cons_self _ _)

theorem plain_ne_dup {s base : String} {k : Nat} (hs : Char.ofNat 126 ∉ s.data) :
    s ≠ base ++ dupSuffix k := by
  intro h
  rw [h] at hs
  exact hs (tilde_mem_dup base k)

theorem dup_inj {b1 b2 : String} {k1 k2 : Nat}
    (h1 : Char.ofNat 126 ∉ b1.data) (h2 : Char.ofNat 126 ∉ b2.data)
    (he : b1 ++ dupSuffix k1 = b2 ++ dupSuffix k2) : b1 = b2 ∧ k1 = k2 := by
  have hd : (b1 ++ dupSuffix k1).data = (b2 ++ dupSuffix k2).data := by rw [he]
  rw [data_dup, data_dup] at hd
  obtain ⟨hb, hr⟩ := split_at_tilde h1 h2 hd
  refine ⟨str_ext hb, ?_⟩
  simp only [List.cons.injEq, true_and] at hr
  exact natDigits_inj hr

theorem dup_nonempty (base : String) (k : Nat) : base ++ dupSuffix k ≠ "" := by
  intro h
  have : (base ++ dupSuffix k).data = ("" : String).data := by rw [h]
  rw [data_dup] at this
  exact absurd (List.append_eq_nil.mp this).2 (by simp)

theorem ctrOf_setCtr_same (ctr : List (String × Nat)) (k : String) (v : Nat) :
    ctrOf (setCtr k v ctr) k = v := by
  induction ctr with
  | nil => simp [setCtr, ctrOf, tlook]
  | cons p rest ih =>
    obtain ⟨k2, v2⟩ := p
    by_cases hk : k = k2
    · simp [setCtr, hk, ctrOf, tlook]
    · simp only [setCtr, if_neg hk]
      simpa [ctrOf, tlook, hk] using ih

theorem ctrOf_setCtr_other (ctr : List (String × Nat)) {k k2 : String} (v : Nat)
    (hne : k2 ≠ k) : ctrOf (setCtr k v ctr) k2 = ctrOf ctr k2 := by
  induction ctr with
  | nil => simp [setCtr, ctrOf, tlook, hne]
  | cons p rest ih =>
    obtain ⟨k3, v3⟩ := p
    by_cases hk : k = k3
    · subst hk
      simp [setCtr, ctrOf, tlook, hne]
    · simp only [setCtr, if_neg hk]
      by_cases hk2 : k2 = k3
      · simp [ctrOf, tlook, hk2]
      · simpa [ctrOf, tlook, hk2] using ih

/-- Classification of an id in the seen registry: either an original
(tilde-free) article id, or a generated id whose counter value is bounded
by the current counter of its base. -/
def SeenOK (ctr : List (String × Nat)) (s : String) : Prop :=
  Char.ofNat 126 ∉ s.data ∨
    ∃ b k, Char.ofNat 126 ∉ b.data ∧ 1 ≤ k ∧ k ≤ ctrOf ctr b ∧ s = b ++ dupSuffix k

theorem assignIds_invariant : ∀ (rest seen : List String) (ctr : List (String × Nat)),
    (∀ s ∈ seen, SeenOK ctr s) →
    (∀ id ∈ rest, id ≠ "" ∧ Char.ofNat 126 ∉ id.data) →
    (assignIds seen ctr rest).Nodup ∧
      (∀ o ∈ assignIds seen ctr rest, o ∉ seen ∧ o ≠ "") := by
  intro rest
  induction rest with
  | nil =>
    intro seen ctr _ _
    refine ⟨List.nodup_nil, ?_⟩
    intro o ho
    simp [assignIds] at ho
  | cons id rest ih =>
    intro seen ctr hseen hrest
    obtain ⟨hid_ne, hid_nt⟩ := hrest id (List.mem_cons_self _ _)
    have hrest' : ∀ i ∈ rest, i ≠ "" ∧ Char.ofNat 126 ∉ i.data :=
      fun i hi => hrest i (List.mem_cons_of_mem _ hi)
    by_cases hmem : id ∈ seen
    · -- collision: emit id ++ "~dup{n}"
      have hstep : assignIds seen ctr (id :: rest) =
          (id ++ dupSuffix (ctrOf ctr id + 1)) ::
            assignIds ((id ++ dupSuffix (ctrOf ctr id + 1)) :: seen)
              (setCtr id (ctrOf ctr id + 1) ctr) rest := by
        simp [assignIds, hmem]
      set n := ctrOf ctr id + 1 with hn
      set newId := id ++ dupSuffix n with hnew
      have hfresh : newId ∉ seen := by
        intro hin
        rcases hseen newId hin with hplain | ⟨b, k, hbnt, hk1, hkle, hbeq⟩
        · exact absurd hnew.symm (plain_ne_dup hplain)
        · rw [hnew] at hbeq
          obtain ⟨hb, hkn⟩ := dup_inj hbnt hid_nt hbeq.symm
          subst hb
          omega
      have hseen' : ∀ s ∈ newId :: seen, SeenOK (setCtr id n ctr) s := by
        intro s hs
        rcases List.mem_cons.mp hs with rfl | hs
        · exact Or.inr ⟨id, n, hid_nt, by omega,
            le_of_eq (ctrOf_setCtr_same ctr id n).symm, hnew⟩
        · rcases hseen s hs with hplain | ⟨b, k, hbnt, hk1, hkle, hbeq⟩
          · exact Or.inl hplain
          · refine Or.inr ⟨b, k, hbnt, hk1, ?_, hbeq⟩
            by_cases hb : b = id
            · subst hb
              rw [ctrOf_setCtr_same]
              omega
            · rw [ctrOf_setCtr_other ctr n hb]
              exact hkle
      obtain ⟨hnd, hout⟩ := ih (newId :: seen) (setCtr id n ctr) hseen' hrest'
      rw [hstep]
      constructor
      · refine List.nodup_cons.mpr ⟨?_, hnd⟩
        intro hin
        exact absurd (List.mem_cons_self newId seen) (hout newId hin).1
      · intro o ho
        rcases List.mem_cons.mp ho with rfl | ho
        · exact ⟨hfresh, dup_nonempty id n⟩
        · have h2 := hout o ho
          exact ⟨fun hsn => h2.1 (List.mem_cons_of_mem _ hsn), h2.2⟩
    · -- fresh id: emit as-is
      have hstep : assignIds seen ctr (id :: rest) =
          id :: assignIds (id :: seen) ctr rest := by
        simp [assignIds, hmem]
      have hseen' : ∀ s ∈ id :: seen, SeenOK ctr s := by
        intro s hs
        rcases List.mem_cons.mp hs with rfl | hs
        · exact Or.inl hid_nt
        · exact hseen s hs
      obtain ⟨hnd, hout⟩ := ih (id :: seen) ctr hseen' hrest'
      rw [hstep]
      constructor
      · refine List.nodup_cons.mpr ⟨?_, hnd⟩
        intro hin
        exact absurd (List.mem_cons_self id seen) (hout id hin).1
      · intro o ho
        rcases List.mem_cons.mp ho with rfl | ho
        · exact ⟨hmem, hid_ne⟩
        · have h2 := hout o ho
          exact ⟨fun hsn => h2.1 (List.mem_cons_of_mem _ hsn), h2.2⟩

theorem assignIds_length : ∀ (rest seen : List String) (ctr : List (String × Nat)),
    (assignIds seen ctr rest).length = rest.length := by
  intro rest
  induction rest with
  | nil => intro seen ctr; rfl
  | cons id rest ih =>
    intro seen ctr
    by_cases hmem : id ∈ seen
    · simp [assignIds, hmem, ih]
    · simp [assignIds, hmem, ih]

/-! ## Counting infrastructure for the letter index -/

theorem map_congr_own {α β : Type} {l : List α} {f g : α → β}
    (h : ∀ a ∈ l, f a = g a) : l.map f = l.map g := by
  induction l with
  | nil => rfl
  | cons a as ih =>
    simp only [List.map_cons]
    rw [h a (List.mem_cons_self _ _), ih (fun x hx => h x (List.mem_cons_of_mem _ hx))]

theorem sum_map_add {α : Type} (l : List α) (f g : α → Nat) :
    (l.map (fun x => f x + g x)).sum = (l.map f).sum + (l.map g).sum := by
  induction l with
  | nil => rfl
  | cons a as ih =>
    simp only [List.map_cons, List.sum_cons, ih]
    omega

theorem sum_ind_zero {L0 : String} : ∀ {l : List String}, L0 ∉ l →
    (l.map (fun L => if L0 = L then (1 : Nat) else 0)).sum = 0 := by
  intro l
  induction l with
  | nil => intro _; rfl
  | cons a as ih =>
    intro h
    have hne : L0 ≠ a := fun he => h (he ▸ List.mem_cons_self a as)
    simp only [List.map_cons, List.sum_cons, if_neg hne,
      ih (fun hm => h (List.mem_cons_of_mem _ hm))]

theorem sum_ind_one {L0 : String} : ∀ {l : List String}, l.Nodup → L0 ∈ l →
    (l.map (fun L => if L0 = L then (1 : Nat) else 0)).sum = 1 := by
  intro l
  induction l with
  | nil => intro _ h; simp at h
  | cons a as ih =>
    intro hnd hm
    rcases List.mem_cons.mp hm with rfl | hm
    · simp only [List.map_cons, List.sum_cons, if_pos rfl]
      rw [sum_ind_zero (List.nodup_cons.mp hnd).1]
      simp
    · have hne : L0 ≠ a := fun he => (List.nodup_cons.mp hnd).1 (he ▸ hm)
      simp only [List.map_cons, List.sum_cons, if_neg hne]
      rw [ih (List.nodup_cons.mp hnd).2 hm]

theorem letterOf_spec_mem_ALPHABET {s L : String} (h : letterOf_spec s = some L) :
    L ∈ ALPHABET := by
  have hall : alphaChars.all (fun c => decide ((⟨[jsToUpper c]⟩ : String) ∈ ALPHABET)) = true := by
    decide
  unfold letterOf_spec at h
  cases hf : s.data.find? isAlphaChar with
  | none => rw [hf] at h; simp at h
  | some c =>
    rw [hf] at h
    have h2 : (⟨[jsToUpper c]⟩ : String) = L := by simpa using h
    have hc : isAlphaChar c = true := List.find?_some hf
    have hcm : c ∈ alphaChars := of_decide_eq_true hc
    have h3 := List.all_eq_true.mp hall c hcm
    rw [← h2]
    exact of_decide_eq_true h3

theorem ALPHABET_nodup : ALPHABET.Nodup := by decide

theorem sum_buildLetters (rs : List JEntry) :
    ((buildLetters rs).map (fun p => p.2.1)).sum =
      (rs.filter (fun r => (letterOf_spec r.lemmaStr).isSome)).length := by
  have hshape : ∀ rs2 : List JEntry, (buildLetters rs2).map (fun p => p.2.1) =
      ALPHABET.map (fun L =>
        (rs2.filter (fun r => letterOf_spec r.lemmaStr = some L)).length) := by
    intro rs2
    unfold buildLetters
    rw [List.map_map]
    refine map_congr_own ?_
    intro L _
    simp
  rw [hshape]
  induction rs with
  | nil => simp
  | cons r rs ih =>
    cases hl : letterOf_spec r.lemmaStr with
    | none =>
      have hstep : ALPHABET.map (fun L =>
            ((r :: rs).filter (fun x => letterOf_spec x.lemmaStr = some L)).length) =
          ALPHABET.map (fun L =>
            (rs.filter (fun x => letterOf_spec x.lemmaStr = some L)).length) := by
        refine map_congr_own ?_
        intro L _
        rw [List.filter_cons]
        rw [if_neg (by simp [hl])]
      rw [hstep, ih, List.filter_cons, if_neg (by simp [hl])]
    | some L0 =>
      have hstep : ALPHABET.map (fun L =>
            ((r :: rs).filter (fun x => letterOf_spec x.lemmaStr = some L)).length) =
          ALPHABET.map (fun L =>
            (if L0 = L then (1 : Nat) else 0) +
              (rs.filter (fun x => letterOf_spec x.lemmaStr = some L)).length) := by
        refine map_congr_own ?_
        intro L _
        rw [List.filter_cons]
        by_cases hL : L0 = L
        · subst hL
          rw [if_pos (by simp [hl]), if_pos rfl]
          simp only [List.length_cons]
          omega
        · rw [if_neg (by simp [hl, hL]), if_neg hL]
          simp
      rw [hstep, sum_map_add, ih,
        sum_ind_one ALPHABET_nodup (letterOf_spec_mem_ALPHABET hl),
        List.filter_cons, if_pos (by simp [hl])]
      simp only [List.length_cons]
      omega

/-! ## Membership through the `sanitizeHTML` replacement passes -/

theorem mem_repC {a c : Char} {r l : List Char} (h : a ∈ repC c r l) :
    a ∈ r ∨ (a ∈ l ∧ a ≠ c) := by
  induction l with
  | nil => simp [repC] at h
  | cons x xs ih =>
    simp only [repC, List.mem_append] at h
    rcases h with h | h
    · by_cases hx : x = c
      · rw [if_pos hx] at h
        exact Or.inl h
      · rw [if_neg hx] at h
        simp only [List.mem_singleton] at h
        subst h
        exact Or.inr ⟨List.mem_cons_self _ _, hx⟩
    · rcases ih h with h2 | h2
      · exact Or.inl h2
      · exact Or.inr ⟨List.mem_cons_of_mem _ h2.1, h2.2⟩

/-- True when a character is none of `<`, `>`, `"`, `'`. -/
def goodChar (c : Char) : Bool :=
  !(c == '<') && !(c == '>') && !(c == Char.ofNat 34) && !(c == Char.ofNat 39)

/-! ## Helper lemmas for symbol resolution and enhancement -/

theorem singleton_str_ne_empty (c : Char) : (⟨[c]⟩ : String) ≠ "" := by
  intro h
  have h2 : ([c] : List Char) = [] := congrArg String.data h
  exact absurd h2 (by simp)

theorem bind_fromCodePoint_ne {o : Option Int} {ch : String}
    (h : o.bind jsFromCodePoint = some ch) : ch ≠ "" := by
  cases o with
  | none => simp at h
  | some n =>
    simp only [Option.some_bind] at h
    unfold jsFromCodePoint at h
    by_cases hr : 0 ≤ n ∧ n ≤ 1114111
    · rw [if_pos hr] at h
      obtain rfl : (⟨[Char.ofNat n.toNat]⟩ : String) = ch := by simpa using h
      exact singleton_str_ne_empty _
    · rw [if_neg hr] at h
      simp at h

theorem loader_lookup_none {syms : SymMap} {symbolId : String} (h : symbolId ≠ "")
    (hlk : tlook symbolId syms = none) :
    getSymbolUnicode_loader (some syms) symbolId = symbolId := by
  show (if symbolId = "" then symbolId
    else match tlook symbolId syms with
      | none => symbolId
      | some sym => resolveSym_loader symbolId sym) = symbolId
  rw [if_neg h, hlk]

theorem loader_lookup_some {syms : SymMap} {symbolId : String} {sym : SymbolInfo}
    (h : symbolId ≠ "") (hlk : tlook symbolId syms = some sym) :
    getSymbolUnicode_loader (some syms) symbolId = resolveSym_loader symbolId sym := by
  show (if symbolId = "" then symbolId
    else match tlook symbolId syms with
      | none => symbolId
      | some s => resolveSym_loader symbolId s) = resolveSym_loader symbolId sym
  rw [if_neg h, hlk]

theorem mgr_lookup_none {syms : SymMap} {symbolId : String} (h : symbolId ≠ "")
    (hlk : tlook symbolId syms = none) :
    getSymbolUnicode_mgr (some syms) symbolId = symbolId := by
  show (if symbolId = "" then ""
    else match tlook symbolId syms with
      | none => symbolId
      | some sym => resolveSym_mgr symbolId sym) = symbolId
  rw [if_neg h, hlk]

theorem mgr_lookup_some {syms : SymMap} {symbolId : String} {sym : SymbolInfo}
    (h : symbolId ≠ "") (hlk : tlook symbolId syms = some sym) :
    getSymbolUnicode_mgr (some syms) symbolId = resolveSym_mgr symbolId sym := by
  show (if symbolId = "" then ""
    else match tlook symbolId syms with
      | none => symbolId
      | some s => resolveSym_mgr symbolId s) = resolveSym_mgr symbolId sym
  rw [if_neg h, hlk]

theorem resolveSym_mgr_ne {symbolId : String} {sym : SymbolInfo} (h : symbolId ≠ "") :
    resolveSym_mgr symbolId sym ≠ "" := by
  unfold resolveSym_mgr
  have hfb : (if sym.name ≠ "" then sym.name else symbolId) ≠ "" := by
    by_cases hnm : sym.name ≠ ""
    · rw [if_pos hnm]; exact hnm
    · rw [if_neg hnm]; exact h
  by_cases hcond : sym.unicode ≠ "" ∧ startsWithUPlus sym.unicode
  · rw [if_pos hcond]
    cases hb : (jsParseIntHex (substring2 sym.unicode)).bind jsFromCodePoint with
    | some ch => exact bind_fromCodePoint_ne hb
    | none => exact hfb
  · rw [if_neg hcond]
    exact hfb

theorem resolveSym_loader_ne {symbolId : String} {sym : SymbolInfo} (h : symbolId ≠ "") :
    resolveSym_loader symbolId sym ≠ "" := by
  unfold resolveSym_loader
  by_cases huc : sym.unicode_char ≠ ""
  · rw [if_pos huc]
    exact huc
  · rw [if_neg huc]
    by_cases hcond : sym.unicode ≠ "" ∧ startsWithUPlus sym.unicode
    · rw [if_pos hcond]
      cases hb : (jsParseIntHex (substring2 sym.unicode)).bind jsFromCodePoint with
      | some ch => exact bind_fromCodePoint_ne hb
      | none =>
        show (if sym.unicode ≠ "" ∧ sym.unicode.data.length = 1 then sym.unicode
          else if sym.name ≠ "" then sym.name else symbolId) ≠ ""
        by_cases hone : sym.unicode ≠ "" ∧ sym.unicode.data.length = 1
        · rw [if_pos hone]; exact hone.1
        · rw [if_neg hone]
          by_cases hnm : sym.name ≠ ""
          · rw [if_pos hnm]; exact hnm
          · rw [if_neg hnm]; exact h
    · rw [if_neg hcond]
      show (if sym.unicode ≠ "" ∧ sym.unicode.data.length = 1 then sym.unicode
        else if sym.name ≠ "" then sym.name else symbolId) ≠ ""
      by_cases hone : sym.unicode ≠ "" ∧ sym.unicode.data.length = 1
      · rw [if_pos hone]; exact hone.1
      · rw [if_neg hone]
        by_cases hnm : sym.name ≠ ""
        · rw [if_pos hnm]; exact hnm
        · rw [if_neg hnm]; exact h

theorem enhanceLetter_letter (e : JEntry) :
    (enhanceLetter e).letter =
      (if e.letter = "" ∧ e.lemmaStr ≠ "" then jsUpperStr (charAt0 e.lemmaStr)
       else e.letter) := by
  unfold enhanceLetter
  by_cases hc : e.letter = "" ∧ e.lemmaStr ≠ ""
  · rw [if_pos hc, if_pos hc]
  · rw [if_neg hc, if_neg hc]

theorem enhanceEntry_letter (symbols : Option SymMap) (dictionary : String) (e : JEntry) :
    (enhanceEntry symbols dictionary e).letter =
      (if e.letter = "" ∧ e.lemmaStr ≠ "" then jsUpperStr (charAt0 e.lemmaStr)
       else e.letter) := by
  rw [← enhanceLetter_letter]
  unfold enhanceEntry
  split
  · rfl
  · rfl

/-! ## Claim theorems -/

/-- C6: for every headword string x, `normalize (normalize x) = normalize x`
— the lemma normaliser (lower-case, decompose, strip combining marks,
collapse whitespace) is idempotent. -/
theorem C6_normalize_idempotent (x : String) : normalize (normalize x) = normalize x := by
  apply str_ext
  have hstab : ∀ a ∈ (normalize x).data,
      jsToLower a = a ∧ dec a = [a] ∧ isMark a = false :=
    fun a ha => norm_chars_stable ha
  show collapseGo false (stripMarks (decList ((normalize x).data.map jsToLower))) =
    (normalize x).data
  rw [map_jsToLower_id (fun a ha => (hstab a ha).1),
    decList_id (fun a ha => (hstab a ha).2.1),
    stripMarks_id (fun a ha => (hstab a ha).2.2)]
  show collapseGo false (collapseGo false (stripMarks (decList (x.data.map jsToLower)))) = _
  exact collapseGo_idem _ false

/-- C7: the headword `"Aqua Fortis"` normalises to `"aqua fortis"`, and its
indexing letter is `"A"`, both in the viewer's `enhanceEntries` letter
derivation and in the spec-modelled letter function. -/
theorem C7_aqua_fortis :
    normalize "Aqua Fortis" = "aqua fortis" ∧
    (enhanceEntry none "ruland" { id := "r1", lemmaStr := "Aqua Fortis" }).letter = "A" ∧
    letterOf_spec "Aqua Fortis" = some "A" := by
  refine ⟨?_, ?_, ?_⟩ <;> decide

/-- C3: the duplicate-id guard of the Identifier Assigner emits non-empty,
pairwise-distinct ids, one per input article, whenever the incoming base
ids are non-empty and contain no tilde (which holds for `xml:id`/`@n`
attribute values and for the synthesised `{source}:{index}` ids). -/
theorem C3_assignIds_unique (ids : List String)
    (h : ∀ id ∈ ids, id ≠ "" ∧ Char.ofNat 126 ∉ id.data) :
    (assignAll ids).Nodup ∧ (∀ o ∈ assignAll ids, o ≠ "") ∧
      (assignAll ids).length = ids.length := by
  obtain ⟨h1, h2⟩ := assignIds_invariant ids [] []
    (by intro s hs; simp at hs) h
  exact ⟨h1, fun o ho => (h2 o ho).2, assignIds_length ids [] []⟩

/-- C3 witness: two articles sharing the explicit identifier `"abc"` are
emitted as `"abc"` and `"abc~dup1"`, and the emitted ids are distinct. -/
theorem C3_assignIds_unique_witness :
    assignAll ["abc", "abc"] = ["abc", "abc~dup1"] ∧
      (assignAll ["abc", "abc"]).Nodup := by
  refine ⟨by decide, (C3_assignIds_unique ["abc", "abc"] ?_).1⟩
  decide

/-- C5: the master letter index has one entry for every letter A–Z (also in
the source's `createEmptyLetterIndex` fallback, where every count is zero
and every id list empty), each count equals the length of its id list, and
the counts sum to the number of records with an alphabetic leading
character. -/
theorem C5_letter_index (rs : List JEntry) :
    (buildLetters rs).map Prod.fst = ALPHABET ∧
    ((buildLetters rs).map (fun p => p.2.1)).sum =
      (rs.filter (fun r => (letterOf_spec r.lemmaStr).isSome)).length ∧
    (∀ p ∈ buildLetters rs, p.2.1 = p.2.2.length) ∧
    createEmptyLetterIndex.letters.map Prod.fst = ALPHABET ∧
    (∀ q ∈ createEmptyLetterIndex.letters, q.2.count = 0 ∧ q.2.entries = some []) := by
  refine ⟨?_, sum_buildLetters rs, ?_, ?_, ?_⟩
  · unfold buildLetters
    rw [List.map_map]
    conv_rhs => rw [← List.map_id ALPHABET]
    exact map_congr_own (fun a _ => rfl)
  · intro p hp
    obtain ⟨L, _, rfl⟩ := List.mem_map.mp hp
    rfl
  · unfold createEmptyLetterIndex
    rw [List.map_map]
    conv_rhs => rw [← List.map_id ALPHABET]
    exact map_congr_own (fun a _ => rfl)
  · intro q hq
    obtain ⟨L, _, rfl⟩ := List.mem_map.mp hq
    exact ⟨rfl, rfl⟩

/-- C5 witness: the letter-index invariants evaluated on a one-record
collection: all 26 letters are present, the counts sum to 1, the `"A"`
bucket count matches its id list, and the `"A"` bucket of the empty fallback
index is `{count := 0, entries := []}`. -/
theorem C5_letter_index_witness :
    (buildLetters [{ id := "a1", lemmaStr := "aqua" }]).map Prod.fst = ALPHABET ∧
    ((buildLetters [{ id := "a1", lemmaStr := "aqua" }]).map (fun p => p.2.1)).sum = 1 ∧
    (1 : Nat) = (["a1"] : List String).length ∧
    ("A", ({ count := 0, entries := some [] } : Bucket)).2.count = 0 := by
  have h := C5_letter_index [{ id := "a1", lemmaStr := "aqua" }]
  refine ⟨h.1, ?_, ?_, ?_⟩
  · rw [h.2.1]
    decide
  · exact h.2.2.1 ("A", 1, ["a1"]) (by decide)
  · exact (h.2.2.2.2 ("A", { count := 0, entries := some [] }) (by decide)).1

/-- C1 counterexample: the symbol-resolution operation does return the empty
string at concrete inputs — both implementations on the empty id (with the
registry present), and the manager implementation on the id `"mercury"`
when no symbol data is loaded — refuting "always returns a non-empty
string" for every id passed to it. -/
theorem C1_resolve_counterexample :
    getSymbolUnicode_loader (some []) "" = "" ∧
    getSymbolUnicode_mgr (some []) "" = "" ∧
    getSymbolUnicode_mgr none "mercury" = "" := by
  refine ⟨rfl, rfl, rfl⟩

/-- C1 (amended): for every non-empty symbol id, with the symbol registry
loaded, both `getSymbolUnicode` implementations never fail and return a
non-empty string — and an id absent from the registry resolves to the raw
id itself. -/
theorem C1_resolve_nonempty (syms : SymMap) (symbolId : String) (h : symbolId ≠ "") :
    getSymbolUnicode_loader (some syms) symbolId ≠ "" ∧
    getSymbolUnicode_mgr (some syms) symbolId ≠ "" ∧
    (tlook symbolId syms = none →
      getSymbolUnicode_loader (some syms) symbolId = symbolId ∧
      getSymbolUnicode_mgr (some syms) symbolId = symbolId) := by
  refine ⟨?_, ?_, ?_⟩
  · cases hlk : tlook symbolId syms with
    | none =>
      rw [loader_lookup_none h hlk]
      exact h
    | some sym =>
      rw [loader_lookup_some h hlk]
      exact resolveSym_loader_ne h
  · cases hlk : tlook symbolId syms with
    | none =>
      rw [mgr_lookup_none h hlk]
      exact h
    | some sym =>
      rw [mgr_lookup_some h hlk]
      exact resolveSym_mgr_ne h
  · intro hlk
    exact ⟨loader_lookup_none h hlk, mgr_lookup_none h hlk⟩

/-- C1 witness: at the concrete registry `{mercury}` and the unknown
non-empty id `"crucible"`, resolution returns the id itself, a non-empty
string. -/
theorem C1_resolve_nonempty_witness :
    getSymbolUnicode_loader (some [("mercury", ⟨"Mercury", "U+263F", ""⟩)]) "crucible"
      = "crucible" ∧
    getSymbolUnicode_mgr (some [("mercury", ⟨"Mercury", "U+263F", ""⟩)]) "crucible" ≠ "" := by
  have h := C1_resolve_nonempty [("mercury", ⟨"Mercury", "U+263F", ""⟩)] "crucible"
    (by decide)
  exact ⟨(h.2.2 (by decide)).1, h.2.1⟩

/-- C4: a symbol declared with a `"U+XXXX"` unicode mapping (and no
pre-resolved literal character) resolves, in both implementations, to the
single character at that code point. -/
theorem C4_uplus_resolution (syms : SymMap) (symbolId hexs : String) (sym : SymbolInfo)
    (n : Int)
    (hid : symbolId ≠ "")
    (hlk : tlook symbolId syms = some sym)
    (huc : sym.unicode_char = "")
    (hu : sym.unicode = "U+" ++ hexs)
    (hp : jsParseIntHex hexs = some n)
    (hr : 0 ≤ n ∧ n ≤ 1114111) :
    getSymbolUnicode_loader (some syms) symbolId = ⟨[Char.ofNat n.toNat]⟩ ∧
    getSymbolUnicode_mgr (some syms) symbolId = ⟨[Char.ofNat n.toNat]⟩ := by
  have hdata : sym.unicode.data = 'U' :: '+' :: hexs.data := by
    rw [hu, str_data_append]
    rfl
  have hsw : startsWithUPlus sym.unicode = true := by
    unfold startsWithUPlus
    rw [hdata]
    rfl
  have hne : sym.unicode ≠ "" := by
    intro hq
    rw [hq] at hdata
    exact absurd hdata (by simp)
  have hsub : substring2 sym.unicode = hexs := by
    apply str_ext
    show sym.unicode.data.drop 2 = hexs.data
    rw [hdata]
    rfl
  have hbind : (jsParseIntHex (substring2 sym.unicode)).bind jsFromCodePoint =
      some ⟨[Char.ofNat n.toNat]⟩ := by
    rw [hsub, hp, Option.some_bind]
    unfold jsFromCodePoint
    rw [if_pos hr]
  constructor
  · rw [loader_lookup_some hid hlk]
    unfold resolveSym_loader
    rw [if_neg (by simp [huc]), if_pos ⟨hne, hsw⟩, hbind]
  · rw [mgr_lookup_some hid hlk]
    unfold resolveSym_mgr
    rw [if_pos ⟨hne, hsw⟩, hbind]

/-- C4 witness: the symbol `"mercury"` declared with unicode `"U+263F"`
resolves to the one-character string `"☿"` in both implementations. -/
theorem C4_uplus_resolution_witness :
    getSymbolUnicode_loader (some [("mercury", ⟨"Mercury", "U+263F", ""⟩)]) "mercury"
      = "☿" ∧
    getSymbolUnicode_mgr (some [("mercury", ⟨"Mercury", "U+263F", ""⟩)]) "mercury"
      = "☿" := by
  have h := C4_uplus_resolution [("mercury", ⟨"Mercury", "U+263F", ""⟩)] "mercury" "263F"
    ⟨"Mercury", "U+263F", ""⟩ 9791 (by decide) (by decide) rfl (by decide) (by decide)
    (by decide)
  have he : (⟨[Char.ofNat (Int.toNat 9791)]⟩ : String) = "☿" := by decide
  exact ⟨he ▸ h.1, he ▸ h.2⟩

/-- C2 counterexample: for the lemma `"1abc"` (leading digit), the code
assigns the letter `"1"` — the upper-case of the first character, with no
skipping — while the claimed rule (skip leading non-alphabetic characters)
yields `"A"`. -/
theorem C2_letter_counterexample :
    (enhanceEntry none "ruland" { id := "e1", lemmaStr := "1abc" }).letter = "1" ∧
    letterOf_spec "1abc" = some "A" ∧
    ("1" : String) ≠ "A" := by
  refine ⟨by decide, by decide, by decide⟩

/-- C2 (amended): `enhanceEntries` assigns, to an entry with no letter and a
non-empty lemma, the upper-case of the lemma's first character — alphabetic
or not, with no skipping of leading non-alphabetic characters; an entry
with an empty lemma or a pre-existing letter keeps its letter.  In the
spec-modelled letter partitioner, every id in a letter's list comes from a
record whose first alphabetic character upper-cases to that letter, so a
record whose lemma has no alphabetic character appears in no partition. -/
theorem C2_letter_assignment (symbols : Option SymMap) (dictionary : String) (e : JEntry) :
    (e.letter = "" → e.lemmaStr ≠ "" →
      (enhanceEntry symbols dictionary e).letter = jsUpperStr (charAt0 e.lemmaStr)) ∧
    (e.letter = "" → e.lemmaStr = "" → (enhanceEntry symbols dictionary e).letter = "") ∧
    (e.letter ≠ "" → (enhanceEntry symbols dictionary e).letter = e.letter) ∧
    (∀ (rs : List JEntry) (p : String × Nat × List String), p ∈ buildLetters rs →
      ∀ i ∈ p.2.2, ∃ r ∈ rs, r.id = i ∧ letterOf_spec r.lemmaStr = some p.1) := by
  refine ⟨?_, ?_, ?_, ?_⟩
  · intro h1 h2
    rw [enhanceEntry_letter, if_pos ⟨h1, h2⟩]
  · intro h1 h2
    rw [enhanceEntry_letter, if_neg (by simp [h2]), h1]
  · intro h1
    rw [enhanceEntry_letter, if_neg (by simp [h1])]
  · intro rs p hp i hi
    obtain ⟨L, _, rfl⟩ := List.mem_map.mp hp
    obtain ⟨r, hr, rfl⟩ := List.mem_map.mp hi
    have hrf := List.mem_filter.mp hr
    exact ⟨r, hrf.1, rfl, of_decide_eq_true hrf.2⟩

/-- C2 witness: an entry with lemma `"Aqua"` and no letter is assigned
letter `"A"`. -/
theorem C2_letter_assignment_witness :
    (enhanceEntry none "ruland" { id := "w1", lemmaStr := "Aqua" }).letter = "A" := by
  have h := (C2_letter_assignment none "ruland" { id := "w1", lemmaStr := "Aqua" }).1
    rfl (by decide)
  rw [h]
  decide

/-- C8: `sanitizeHTML` output never contains `<`, `>`, `"` or `'` (each
replaced by its HTML entity, `&` escaped first, as the sample shows), and
every non-string or empty input yields the empty string. -/
theorem C8_sanitizeHTML_escapes :
    (∀ v : JSVal, (sanitizeHTML v).data.all goodChar = true) ∧
    (∀ n : Int, sanitizeHTML (.num n) = "") ∧
    (∀ b : Bool, sanitizeHTML (.bool b) = "") ∧
    sanitizeHTML .null = "" ∧
    sanitizeHTML .undefined = "" ∧
    sanitizeHTML (.str "") = "" ∧
    sanitizeHTML (.str "&<i>") = "&amp;&lt;i&gt;" := by
  refine ⟨?_, fun n => rfl, fun b => rfl, rfl, rfl, rfl, by decide⟩
  intro v
  cases v with
  | num n => rfl
  | bool b => rfl
  | null => rfl
  | undefined => rfl
  | str s =>
    by_cases hs : s = ""
    · rw [hs]
      rfl
    · show ((if s = "" then "" else _ : String)).data.all goodChar = true
      rw [if_neg hs]
      apply List.all_eq_true.mpr
      intro a ha
      have ha5 : a ∈ repC (Char.ofNat 39) "&#039;".data
          (repC (Char.ofNat 34) "&quot;".data
            (repC '>' "&gt;".data
              (repC '<' "&lt;".data
                (repC '&' "&amp;".data s.data)))) := ha
      rcases mem_repC ha5 with hrep | ⟨ha4, hne39⟩
      · exact List.all_eq_true.mp (by decide) a hrep
      rcases mem_repC ha4 with hrep | ⟨ha3, hne34⟩
      · exact List.all_eq_true.mp (by decide) a hrep
      rcases mem_repC ha3 with hrep | ⟨ha2, hneGt⟩
      · exact List.all_eq_true.mp (by decide) a hrep
      rcases mem_repC ha2 with hrep | ⟨ha1, hneLt⟩
      · exact List.all_eq_true.mp (by decide) a hrep
      rcases mem_repC ha1 with hrep | ⟨_, _⟩
      · exact List.all_eq_true.mp (by decide) a hrep
      · simp only [goodChar, Bool.and_eq_true, Bool.not_eq_true', beq_eq_false_iff_ne]
        exact ⟨⟨⟨hneLt, hneGt⟩, hne34⟩, hne39⟩

/-- C9: `getEntry` rejects exactly when the entry id is missing; for a
non-empty id it always resolves — on any failure of the `try` block it
resolves to the placeholder record carrying the requested id and
dictionary. -/
theorem C9_getEntry_total (env : MgrEnv) (dictionary entryId : String) :
    (entryId = "" → getEntry_mgr env dictionary entryId = .error "Entry ID is required") ∧
    (entryId ≠ "" → ∃ e, getEntry_mgr env dictionary entryId = .ok e) ∧
    (entryId ≠ "" → ∀ u, tryGetEntry env entryId = .error u →
      getEntry_mgr env dictionary entryId = .ok (placeholderEntry entryId dictionary)) ∧
    (placeholderEntry entryId dictionary).id = entryId ∧
    (placeholderEntry entryId dictionary).source = dictionary := by
  refine ⟨?_, ?_, ?_, rfl, rfl⟩
  · intro h
    unfold getEntry_mgr
    rw [if_pos h]
  · intro h
    unfold getEntry_mgr
    rw [if_neg h]
    cases htry : tryGetEntry env entryId with
    | ok e => exact ⟨e, rfl⟩
    | error u => exact ⟨placeholderEntry entryId dictionary, rfl⟩
  · intro h u htry
    unfold getEntry_mgr
    rw [if_neg h, htry]

/-- C9 witness: with both loads failing, `getEntry` for id `"x1"` in
`"ruland"` resolves to the placeholder with that id and source. -/
theorem C9_getEntry_total_witness :
    getEntry_mgr ⟨.error (), fun _ => .error ()⟩ "ruland" "x1" =
      .ok (placeholderEntry "x1" "ruland") ∧
    (placeholderEntry "x1" "ruland").id = "x1" ∧
    (placeholderEntry "x1" "ruland").source = "ruland" := by
  have h := C9_getEntry_total ⟨.error (), fun _ => .error ()⟩ "ruland" "x1"
  exact ⟨h.2.2.1 (by decide) () rfl, h.2.2.2.1, h.2.2.2.2⟩

/-- C10: `DataStore.search` returns at most `limit` results (at most 20 by
default), and the i-th result is the id-map value under the ref of the i-th
retained index hit. -/
theorem C10_search_limit (lunrSearch : String → List LunrHit)
    (idMap : List (String × JEntry)) (q : String) (limit : Nat) :
    (dsSearch lunrSearch idMap q limit).length ≤ limit ∧
    (dsSearchDefault lunrSearch idMap q).length ≤ 20 ∧
    (∀ i, ∀ hi : i < (dsSearch lunrSearch idMap q limit).length,
      ∃ hj : i < ((lunrSearch q).take limit).length,
        (dsSearch lunrSearch idMap q limit).get ⟨i, hi⟩ =
          tlook (((lunrSearch q).take limit).get ⟨i, hj⟩).ref idMap) := by
  refine ⟨?_, ?_, ?_⟩
  · show (((lunrSearch q).take limit).map _).length ≤ limit
    rw [List.length_map, List.length_take]
    exact min_le_left _ _
  · show (((lunrSearch q).take 20).map _).length ≤ 20
    rw [List.length_map, List.length_take]
    exact min_le_left _ _
  · intro i hi
    have hj : i < ((lunrSearch q).take limit).length := by
      have h2 : (dsSearch lunrSearch idMap q limit).length =
          ((lunrSearch q).take limit).length := List.length_map _ _
      omega
    exact ⟨hj, List.get_map _⟩

/-- C10 witness: with three index hits, a two-element limit and a one-entry
id map, the search returns the mapped record for the first ref and
`undefined` for the unmapped second ref, and respects the limit. -/
theorem C10_search_limit_witness :
    (dsSearch (fun _ => [⟨"e1"⟩, ⟨"e2"⟩, ⟨"e3"⟩]) [("e1", { id := "e1" })] "aqua" 2).length
      ≤ 2 ∧
    dsSearch (fun _ => [⟨"e1"⟩, ⟨"e2"⟩, ⟨"e3"⟩]) [("e1", { id := "e1" })] "aqua" 2 =
      [some { id := "e1" }, none] := by
  refine ⟨(C10_search_limit (fun _ => [⟨"e1"⟩, ⟨"e2"⟩, ⟨"e3"⟩])
    [("e1", { id := "e1" })] "aqua" 2).1, by decide⟩

end AlchDict
